import Mathlib

/-!
# Verification of the Cmdanager progress-tracking task tree

A shallow embedding of `src/tasks.py` and `src/logger/utils.py`:

* the listener registry of the abstract `Task` class is modelled by its ordered
  key list (Python dicts preserve insertion order; the callback values are
  irrelevant to the id-allocation and removal claims);
* the three task variants `SimpleTask`, `CounterTask` and `MultiTask` are
  modelled as an inductive tree carrying exactly the mutable state of the
  Python objects (the done flag, the progress counter and target length, the
  ordered child list);
* the `Value("i", _)` cells are 32-bit C ints via ctypes, which silently
  mask out-of-range assignments; the counter increment is therefore modelled
  as `wrap32 (p + 1)` over `Int`, wrapping at `2^31` exactly as the cell does;
* `CounterTask.__init__` stores any number as the target without validation,
  and the repository's own driver passes floats (`CounterTask(len(data)/2)`),
  so the target is modelled as `ℚ`; the float values reached by the claims
  (halves, small integers) are dyadic and exact in both systems, as are the
  comparisons and divisions on them — `Option` captures `ZeroDivisionError`;
* listener notification is modelled by snapshot logs: each operation returns,
  besides the new state, the chronological list of snapshots at which the
  operated node fired its own listener set; the parent hook that
  `MultiTask.__init__` installs on every child (`task.add(self.update)`) is
  part of the reset/update semantics below.
-/

set_option maxHeartbeats 1000000

namespace Cmdanager

/-! ## Listener registry (`Task._update_listeners`, `src/logger/utils.py`) -/

/-- Sorted insertion into an ascending list; helper for `sortKeys`. -/
def insertSorted (x : Int) : List Int → List Int
  | [] => [x]
  | y :: ys => if x ≤ y then x :: y :: ys else y :: insertSorted x ys

/-- `sorted(dictionary.keys())` of Python: ascending sort of the key list. -/
def sortKeys : List Int → List Int
  | [] => []
  | x :: xs => insertSorted x (sortKeys xs)

/-- The loop of `unique_integer_key` (src/logger/utils.py lines 2-6): `prev`
starts at `0`; the first sorted key `uid` with `uid - prev ≠ 1` makes the
function return `uid - 1`; if the loop completes it returns `prev + 1`. -/
def uikLoop : Int → List Int → Int
  | prev, [] => prev + 1
  | prev, uid :: rest => if uid - prev ≠ 1 then uid - 1 else uikLoop uid rest

/-- `unique_integer_key(dictionary)` from src/logger/utils.py. -/
def unique_integer_key (keys : List Int) : Int :=
  uikLoop 0 (sortKeys keys)

/-- `Task.add` (src/tasks.py lines 17-20): allocate an id with
`unique_integer_key`, store the listener under it (Python dicts append new
keys at the end), return the id. -/
def addListener (keys : List Int) : List Int × Int :=
  let uid := unique_integer_key keys
  (keys ++ [uid], uid)

/-- `Task.remove` (src/tasks.py lines 22-23): `del self._update_listeners[uid]`.
A missing key raises `KeyError` and leaves the dict untouched; the first
component reports the raised error, the second is the dict afterwards. -/
def removeListener (keys : List Int) (uid : Int) : Option String × List Int :=
  if uid ∈ keys then (none, keys.erase uid) else (some "KeyError", keys)

/-- Modelled from the claim's words (not from the source): the
"smallest-available-gap" allocator that claim C3 attributes to the code —
the least positive integer absent from the key set.  Searching up to
`length + 1` candidates always suffices by pigeonhole. -/
def smallestMissingFrom (keys : List Int) : Nat → Int → Int
  | 0, c => c
  | fuel + 1, c => if c ∈ keys then smallestMissingFrom keys fuel (c + 1) else c

/-- Modelled from the claim's words: least positive integer not in `keys`. -/
def smallestMissing (keys : List Int) : Int :=
  smallestMissingFrom keys (keys.length + 1) 1

/-- The gap-free key segment `[s + 1, s + 2, ..., s + n]`. -/
def ascend (s : Int) : Nat → List Int
  | 0 => []
  | n + 1 => (s + 1) :: ascend (s + 1) n

/-- Assignment into a `Value("i", _)` cell: ctypes masks to a signed 32-bit
int, wrapping silently at `2^31`. -/
def wrap32 (x : Int) : Int :=
  (x + 2147483648) % 4294967296 - 2147483648

/-! ## Task state trees (`src/tasks.py`) -/

/-- The mutable state of a task object: `SimpleTask` holds its done flag,
`CounterTask` its 32-bit progress cell (an `Int` kept in range by `wrap32`)
and its target — a plain Python number that may be fractional, modelled as
`ℚ` — and `MultiTask` its ordered children (the `name` string plays no role
in any claim). -/
inductive Task where
  | simple (done : Bool)
  | counter (progress : Int) (length : ℚ)
  | multi (children : List Task)

mutual
/-- `is_done` of each variant: the flag; `progress >= length`;
`all(task.is_done() for task in self._sub_tasks)`. -/
def is_done : Task → Bool
  | .simple d => d
  | .counter p l => decide (l ≤ (p : ℚ))
  | .multi cs => allDone cs
/-- The `all(...)` generator over the children (short-circuiting `and`). -/
def allDone : List Task → Bool
  | [] => true
  | c :: cs => is_done c && allDone cs
end

mutual
/-- `completeness` of each variant; `none` models Python's
`ZeroDivisionError` from `self._progress.value / self._length`. -/
def completeness : Task → Option ℚ
  | .simple d => some (if d then 1 else 0)
  | .counter p l => if l = 0 then none else some ((p : ℚ) / l)
  | .multi cs =>
      if cs.length = 0 then some 1
      else
        match completenessSum cs with
        | none => none
        | some acc => some (acc / (cs.length : ℚ))
/-- The `acc` accumulation loop of `MultiTask.completeness`; a child's
exception aborts the loop. -/
def completenessSum : List Task → Option ℚ
  | [] => some 0
  | c :: cs =>
      match completeness c, completenessSum cs with
      | some q, some s => some (q + s)
      | _, _ => none
end

/-- The variant-specific `_update` state change (guard excluded): set the
flag, increment the 32-bit counter cell (wrapping at `2^31`), do nothing on
a composite. -/
def primUpdate : Task → Task
  | .simple _ => .simple true
  | .counter p l => .counter (wrap32 (p + 1)) l
  | .multi cs => .multi cs

mutual
/-- State effect of calling `update()` on the node addressed by a child-index
path (`[]` is the node itself): `Task.update` checks `is_done` of that node
only, then runs its `_update`.  An out-of-range path changes nothing. -/
def updateAtState : Task → List Nat → Task
  | t, [] => if is_done t then t else primUpdate t
  | .multi cs, i :: rest => .multi (updateChildState cs i rest)
  | t, _ :: _ => t
/-- Address child `i` of a child list and update inside it. -/
def updateChildState : List Task → Nat → List Nat → List Task
  | [], _, _ => []
  | c :: cs, 0, rest => updateAtState c rest :: cs
  | c :: cs, i + 1, rest => c :: updateChildState cs i rest
end

/-- A sequence of `update()` calls addressed by paths, left to right. -/
def updSeq (t : Task) (ps : List (List Nat)) : Task :=
  ps.foldl updateAtState t

mutual
/-- State effect of `reset()`: the flag is cleared, the counter zeroed, the
children reset recursively (`MultiTask._reset`). -/
def resetState : Task → Task
  | .simple _ => .simple false
  | .counter _ l => .counter 0 l
  | .multi cs => .multi (resetStateList cs)
/-- Reset every task of a child list. -/
def resetStateList : List Task → List Task
  | [] => []
  | c :: cs => resetState c :: resetStateList cs
end

mutual
/-- Every leaf is in its zero state (flag `false`, counter `0`). -/
def leavesZero : Task → Bool
  | .simple d => !d
  | .counter p _ => decide (p = 0)
  | .multi cs => leavesZeroList cs
/-- `leavesZero` over a child list. -/
def leavesZeroList : List Task → Bool
  | [] => true
  | c :: cs => leavesZero c && leavesZeroList cs
end

mutual
/-- Well-formed states: every counter leaf has a positive *integer* target
that the 32-bit progress cell can reach (at most `2^31 - 1`) and a progress
value between `0` and that target (true of every state reachable by
`update`/`reset` from a freshly built tree with such targets). -/
def valid : Task → Bool
  | .simple _ => true
  | .counter p l =>
      decide (0 < l.num) && decide (l.den = 1) && decide (l.num ≤ 2147483647) &&
        decide (0 ≤ p) && decide (p ≤ l.num)
  | .multi cs => validList cs
/-- `valid` over a child list. -/
def validList : List Task → Bool
  | [] => true
  | c :: cs => valid c && validList cs
end

mutual
/-- Trees on which reset notification propagates at every node: every counter
leaf has a positive target and every composite has at least one child (an
empty composite is permanently done, which silences its parent hook). -/
def good : Task → Bool
  | .simple _ => true
  | .counter _ l => decide (0 < l)
  | .multi cs => !(cs.isEmpty) && goodList cs
/-- `good` over a child list. -/
def goodList : List Task → Bool
  | [] => true
  | c :: cs => good c && goodList cs
end

mutual
/-- Number of nodes of a task tree. -/
def nodeCount : Task → Nat
  | .simple _ => 1
  | .counter _ _ => 1
  | .multi cs => nodeCountList cs + 1
/-- Total node count of a child list. -/
def nodeCountList : List Task → Nat
  | [] => 0
  | c :: cs => nodeCount c + nodeCountList cs
end

/-- `Task.update` called on a node (src/tasks.py lines 25-29): if the node is
done, nothing happens and no listener fires; otherwise `_update` runs and the
node fires its listener set once.  Returns the new state and the snapshots at
each firing of this node's listeners. -/
def updateSub (t : Task) : Task × List Task :=
  if is_done t then (t, [])
  else
    match t with
    | .simple _ => (.simple true, [.simple true])
    | .counter p l => (.counter (wrap32 (p + 1)) l, [.counter (wrap32 (p + 1)) l])
    | .multi cs => (.multi cs, [.multi cs])

mutual
/-- `Task.reset` called on the root of a subtree (src/tasks.py lines 31-34):
run the variant `_reset`, then fire this node's listeners once,
unconditionally.  Returns the new subtree and the chronological snapshot list
of every moment this node fired its own listener set — including the firings
its `update` hook performs while a child's reset notifies it
(`MultiTask.__init__` registers `self.update` on every child). -/
def resetSub : Task → Task × List Task
  | .simple _ => (.simple false, [.simple false])
  | .counter _ l => (.counter 0 l, [.counter 0 l])
  | .multi cs =>
      let r := resetChildren [] cs
      (.multi r.1, r.2 ++ [.multi r.1])
/-- The `MultiTask._reset` loop over the children (src/tasks.py lines
106-108): `fin` holds the already-reset left siblings, the second argument
the children still to reset.  Each firing of a child's listeners invokes the
parent's `update`; the parent fires its own listeners exactly when it is not
done at that instant (children = reset left siblings, the child's current
snapshot, untouched right siblings).  Returns the final children and the
parent's firing snapshots caused by these children. -/
def resetChildren : List Task → List Task → List Task × List Task
  | fin, [] => (fin, [])
  | fin, c :: rest =>
      let rc := resetSub c
      let mine := rc.2.filterMap (fun s =>
        if is_done (.multi (fin ++ s :: rest)) then none
        else some (Task.multi (fin ++ s :: rest)))
      let rr := resetChildren (fin ++ [rc.1]) rest
      (rr.1, mine ++ rr.2)
end

/-- `n` successive `update()` calls on a node, collecting the firings. -/
def updateRunN : Task → Nat → Task × List Task
  | t, 0 => (t, [])
  | t, n + 1 =>
      let r := updateSub t
      let rr := updateRunN r.1 n
      (rr.1, r.2 ++ rr.2)

/-- An `update()` or `reset()` call on a task. -/
inductive TOp where
  | upd
  | rst

/-- State effect of one operation on the task it is called on. -/
def applyOp (t : Task) : TOp → Task
  | .upd => (updateSub t).1
  | .rst => (resetSub t).1

/-- State after a sequence of `update()`/`reset()` calls on a task. -/
def applyOps (t : Task) (ops : List TOp) : Task :=
  ops.foldl applyOp t

/-- `CounterTask.__init__(progress_length, name)` (src/tasks.py lines 72-75):
stores the target and zeroes the counter — it performs no validation at all,
so construction succeeds for every target, fractional and non-positive ones
included. -/
def mkCounterTask (progress_length : ℚ) : Task :=
  .counter 0 progress_length

/-! ## Interleaving model of K workers updating one shared counter (C9)

One `update()` call on a `CounterTask` decomposes into two atomic phases:
the unguarded `is_done` read (`Task.update` line 26, a single read of the
shared `Value("i")` cell) and the increment under the cell's lock
(`CounterTask._update` lines 80-82).  A pool state counts the workers in each
phase; a schedule interleaves the phases arbitrarily. -/

/-- Pool of workers sharing one `CounterTask` with target `K`: how many have
not yet run the guard, passed the guard but not yet incremented, finished
with an increment, finished by skipping (guard saw done), and the shared
counter value. -/
structure WPool where
  pending : Nat
  armed : Nat
  finInc : Nat
  finSkip : Nat
  progress : Int

/-- An atomic phase: some worker runs its guard, or some worker holding the
lock performs its increment. -/
inductive WAct where
  | doGuard
  | doIncr

/-- One atomic phase of some worker (no-op when no worker is in the matching
phase).  The guard evaluates `is_done` on the shared counter exactly as
`Task.update` does; the locked increment wraps at `2^31` exactly as the
32-bit `Value("i")` cell does. -/
def wstep (K : ℚ) (s : WPool) : WAct → WPool
  | .doGuard =>
      if s.pending = 0 then s
      else if is_done (.counter s.progress K) then
        { s with pending := s.pending - 1, finSkip := s.finSkip + 1 }
      else
        { s with pending := s.pending - 1, armed := s.armed + 1 }
  | .doIncr =>
      if s.armed = 0 then s
      else
        { s with armed := s.armed - 1, finInc := s.finInc + 1,
                 progress := wrap32 (s.progress + 1) }

/-- Run an interleaving schedule. -/
def wrun (K : ℚ) (s : WPool) (sched : List WAct) : WPool :=
  sched.foldl (wstep K) s

/-- The fully sequential schedule: n rounds of one guard read followed by
the matching locked increment. -/
def roundSched : Nat → List WAct
  | 0 => []
  | n + 1 => WAct.doGuard :: WAct.doIncr :: roundSched n

/-- K workers about to call `update()` once each on a fresh shared
`CounterTask(K)`. -/
def winit (K : Nat) : WPool :=
  ⟨K, 0, 0, 0, 0⟩

/-- Inductive invariant of the worker pool: nobody has skipped, the shared
counter counts exactly the finished increments, and no worker is lost. -/
def winv (K : Nat) (s : WPool) : Prop :=
  s.pending + s.armed + s.finInc = K ∧ s.finSkip = 0 ∧ s.progress = (s.finInc : Int)

/-! ## General lemmas -/

/-- Simultaneous induction over a task tree and its child lists. -/
theorem task_ind (P : Task → Prop) (Q : List Task → Prop)
    (h1 : ∀ d, P (.simple d)) (h2 : ∀ p l, P (.counter p l))
    (h3 : ∀ cs, Q cs → P (.multi cs))
    (h4 : Q []) (h5 : ∀ c cs, P c → Q cs → Q (c :: cs)) :
    (∀ t, P t) ∧ ∀ cs, Q cs := by
  have ht : ∀ t, P t := fun t => @Task.rec P Q h1 h2 h3 h4 h5 t
  refine ⟨ht, ?_⟩
  intro cs
  induction cs with
  | nil => exact h4
  | cons c cs ih => exact h5 c cs (ht c) ih

/-! ## Registry lemmas (claims C3, C8) -/

theorem insertSorted_perm (x : Int) (l : List Int) :
    List.Perm (insertSorted x l) (x :: l) := by
  induction l with
  | nil => simp [insertSorted]
  | cons y ys ih =>
      by_cases h : x ≤ y
      · simp [insertSorted, h]
      · simp only [insertSorted, if_neg h]
        exact List.Perm.trans (List.Perm.cons y ih) (List.Perm.swap x y ys)

theorem sortKeys_perm (l : List Int) : List.Perm (sortKeys l) l := by
  induction l with
  | nil => simp [sortKeys]
  | cons x xs ih =>
      exact List.Perm.trans (insertSorted_perm x (sortKeys xs)) (List.Perm.cons x ih)

theorem insertSorted_sorted (x : Int) {l : List Int}
    (h : l.Pairwise (· ≤ ·)) : (insertSorted x l).Pairwise (· ≤ ·) := by
  induction l with
  | nil => simp [insertSorted]
  | cons y ys ih =>
      rcases List.pairwise_cons.mp h with ⟨hy, hys⟩
      by_cases hxy : x ≤ y
      · simp only [insertSorted, if_pos hxy]
        refine List.pairwise_cons.mpr ⟨?_, h⟩
        intro z hz
        rcases List.mem_cons.mp hz with rfl | hz
        · exact hxy
        · exact le_trans hxy (hy z hz)
      · simp only [insertSorted, if_neg hxy]
        refine List.pairwise_cons.mpr ⟨?_, ih hys⟩
        intro z hz
        have hz' := (insertSorted_perm x ys).mem_iff.mp hz
        rcases List.mem_cons.mp hz' with rfl | hz'
        · exact le_of_lt (lt_of_not_le hxy)
        · exact hy z hz'

theorem sortKeys_sorted (l : List Int) : (sortKeys l).Pairwise (· ≤ ·) := by
  induction l with
  | nil => simp [sortKeys]
  | cons x xs ih => exact insertSorted_sorted x ih

theorem sortKeys_sorted_lt {l : List Int} (h : l.Nodup) :
    (sortKeys l).Pairwise (· < ·) := by
  have hnd : (sortKeys l).Nodup := (sortKeys_perm l).nodup_iff.mpr h
  have hle := sortKeys_sorted l
  exact (hle.and hnd).imp (fun hab => lt_of_le_of_ne hab.1 hab.2)

theorem sortKeys_of_sorted {l : List Int} (h : l.Pairwise (· ≤ ·)) :
    sortKeys l = l := by
  induction l with
  | nil => rfl
  | cons x xs ih =>
      rcases List.pairwise_cons.mp h with ⟨hx, hxs⟩
      have hxs' : sortKeys xs = xs := ih hxs
      simp only [sortKeys, hxs']
      cases xs with
      | nil => rfl
      | cons y ys => simp [insertSorted, hx y (List.mem_cons_self y ys)]

/-- The allocation loop never returns a key of a sorted tail lying above
`prev`, and its result lies strictly above `prev`. -/
theorem uikLoop_fresh :
    ∀ (L : List Int) (prev : Int), L.Pairwise (· < ·) → (∀ x ∈ L, prev < x) →
      uikLoop prev L ∉ L ∧ prev < uikLoop prev L := by
  intro L
  induction L with
  | nil =>
      intro prev _ _
      simp [uikLoop]
  | cons x rest ih =>
      intro prev hsort hgt
      rcases List.pairwise_cons.mp hsort with ⟨hx, hrest⟩
      by_cases hbrk : x - prev ≠ 1
      · have hxp : prev < x := hgt x (List.mem_cons_self x rest)
        have hx2 : prev + 2 ≤ x := by omega
        refine ⟨?_, by simp [uikLoop, hbrk]; omega⟩
        simp only [uikLoop, if_pos hbrk]
        intro hmem
        rcases List.mem_cons.mp hmem with heq | hmem
        · omega
        · have := hx _ hmem
          omega
      · have hx1 : x = prev + 1 := by omega
        have hrec := ih x hrest hx
        refine ⟨?_, ?_⟩
        · simp only [uikLoop, if_neg hbrk]
          intro hmem
          rcases List.mem_cons.mp hmem with heq | hmem2
          · have := hrec.2
            omega
          · exact hrec.1 hmem2
        · simp only [uikLoop, if_neg hbrk]
          have := hrec.2
          omega

theorem ascend_mem : ∀ (n : Nat) (s x : Int), x ∈ ascend s n → s < x ∧ x ≤ s + n := by
  intro n
  induction n with
  | zero => intro s x hx; simp [ascend] at hx
  | succ n ih =>
      intro s x hx
      rcases List.mem_cons.mp hx with rfl | hx
      · omega
      · have := ih (s + 1) x hx
        omega

theorem ascend_sorted : ∀ (n : Nat) (s : Int), (ascend s n).Pairwise (· < ·) := by
  intro n
  induction n with
  | zero => intro s; simp [ascend]
  | succ n ih =>
      intro s
      refine List.pairwise_cons.mpr ⟨?_, ih (s + 1)⟩
      intro x hx
      exact (ascend_mem n (s + 1) x hx).1

/-- On a gap-free sorted segment the loop runs to the end: the new id is
`(max existing key) + 1`. -/
theorem uikLoop_ascend : ∀ (n : Nat) (s : Int), uikLoop s (ascend s n) = s + n + 1 := by
  intro n
  induction n with
  | zero => intro s; simp [ascend, uikLoop]
  | succ n ih =>
      intro s
      have hcond : ¬(s + 1 - s ≠ 1) := by omega
      simp only [ascend, uikLoop, if_neg hcond]
      have := ih (s + 1)
      omega

/-- Behind a gap-free prefix `[s+1..s+m]`, the first break key `k` makes the
loop return `k - 1`. -/
theorem uikLoop_break :
    ∀ (m : Nat) (s k : Int) (rest : List Int), s + m + 2 ≤ k →
      uikLoop s (ascend s m ++ k :: rest) = k - 1 := by
  intro m
  induction m with
  | zero =>
      intro s k rest hk
      simp only [ascend, List.nil_append, uikLoop, if_pos (by omega : k - s ≠ 1)]
  | succ m ih =>
      intro s k rest hk
      simp only [ascend, List.cons_append, uikLoop,
        if_neg (by omega : ¬(s + 1 - s ≠ 1))]
      exact ih (s + 1) k rest (by omega)

/-! ## Claim theorems: the listener registry -/

/-- Claim C3, counterexample.  Build the registry by `add, add, add` (ids
1, 2, 3), then remove ids 1 and 2; the remaining key set is `{3}` and its
first gap is `{1, 2}`.  Smallest-available-gap allocation — what the claim
states — would return `1`, but the code's next `add` returns `2`
(`uid - 1` at the first chain break), so the claim's allocation rule is
false on this reachable registry. -/
theorem C3_counterexample :
    (addListener []).2 = 1 ∧ (addListener []).1 = [1] ∧
    (addListener [1]).2 = 2 ∧ (addListener [1]).1 = [1, 2] ∧
    (addListener [1, 2]).2 = 3 ∧ (addListener [1, 2]).1 = [1, 2, 3] ∧
    removeListener [1, 2, 3] 1 = (none, [2, 3]) ∧
    removeListener [2, 3] 2 = (none, [3]) ∧
    (addListener [3]).2 = 2 ∧
    smallestMissing [3] = 1 ∧
    (addListener [3]).2 ≠ smallestMissing [3] := by
  decide

/-- Claim C3, amended: `add()` does return a fresh id not present in the
registry, `(max key) + 1` when the key set is gap-free from 1, and `1` on an
empty registry, and the claim's own example (ids 1, 2, 3; remove 2; next add
returns 2) holds; but at the first break of the unit-increment chain the
allocator returns one **less** than the first breaking key — the *top* of the
first gap — which is the smallest missing id only when that gap has width 1. -/
theorem C3_amended :
    (unique_integer_key [] = 1) ∧
    (∀ n : Nat, unique_integer_key (ascend 0 n) = n + 1) ∧
    (∀ (m : Nat) (k : Int) (rest : List Int),
      (ascend 0 m ++ k :: rest).Pairwise (· ≤ ·) → m + 2 ≤ k →
      unique_integer_key (ascend 0 m ++ k :: rest) = k - 1) ∧
    (∀ keys : List Int, keys.Nodup → (∀ x ∈ keys, 1 ≤ x) →
      unique_integer_key keys ∉ keys) ∧
    ((addListener [1, 3]).2 = 2) := by
  refine ⟨by decide, ?_, ?_, ?_, by decide⟩
  · intro n
    have hs : (ascend 0 n).Pairwise (· ≤ ·) :=
      (ascend_sorted n 0).imp le_of_lt
    simp only [unique_integer_key, sortKeys_of_sorted hs]
    have := uikLoop_ascend n 0
    omega
  · intro m k rest hsorted hk
    simp only [unique_integer_key, sortKeys_of_sorted hsorted]
    exact uikLoop_break m 0 k rest (by omega)
  · intro keys hnodup hpos
    have hperm := sortKeys_perm keys
    have hsort := sortKeys_sorted_lt hnodup
    have hgt : ∀ x ∈ sortKeys keys, (0 : Int) < x := by
      intro x hx
      have := hpos x (hperm.mem_iff.mp hx)
      omega
    have := uikLoop_fresh (sortKeys keys) 0 hsort hgt
    simp only [unique_integer_key]
    intro hmem
    exact this.1 (hperm.mem_iff.mpr hmem)

/-- Witness for C3_amended at concrete inputs: the sorted registry
`[1, 2, 4]` (chain prefix `[1, 2]`, break key `4`) yields id `3`, and on the
unsorted reachable registry `[3, 2]` the allocated id is fresh. -/
theorem C3_amended_witness :
    unique_integer_key (ascend 0 2 ++ (4 : Int) :: []) = 3 ∧
    unique_integer_key [3, 2] ∉ ([3, 2] : List Int) := by
  refine ⟨?_, ?_⟩
  · have h := C3_amended.2.2.1 2 4 [] (by decide) (by decide)
    omega
  · exact C3_amended.2.2.2.1 [3, 2] (by decide) (by decide)

/-- Claim C8: `remove(uid)` on an id absent from the registry raises
`KeyError` to the caller and leaves the registry unchanged. -/
theorem C8_remove_unknown (keys : List Int) (uid : Int) (h : uid ∉ keys) :
    removeListener keys uid = (some "KeyError", keys) := by
  simp [removeListener, h]

/-- Witness for C8 at a concrete registry. -/
theorem C8_remove_unknown_witness :
    removeListener [1, 3] 2 = (some "KeyError", [1, 3]) :=
  C8_remove_unknown [1, 3] 2 (by decide)

/-- Claim C7 is right and the code is wrong: `CounterTask.__init__` performs
no validation, so a counted leaf with target `0` (or any non-positive
target) is constructed successfully; the failure the spec wants at
construction time only surfaces later, as `ZeroDivisionError` when
`completeness()` is called (target `0`), or as an immediately-done task with
completeness `0` (negative target). -/
theorem C7_no_construction_check :
    mkCounterTask 0 = Task.counter 0 0 ∧
    completeness (mkCounterTask 0) = none ∧
    is_done (mkCounterTask (-1)) = true ∧
    completeness (mkCounterTask (-1)) = some 0 := by
  refine ⟨rfl, by simp [mkCounterTask, completeness], by decide, ?_⟩
  simp [mkCounterTask, completeness]

/-! ## Reset propagation lemmas (claim C1) -/

theorem allDone_false_of_mem :
    ∀ (cs : List Task) (c : Task), c ∈ cs → is_done c = false → allDone cs = false := by
  intro cs
  induction cs with
  | nil => intro c hc _; simp at hc
  | cons x xs ih =>
      intro c hc hcf
      rcases List.mem_cons.mp hc with rfl | hc
      · simp [allDone, hcf]
      · simp [allDone, ih c hc hcf]

/-- State part of reset: `resetSub` performs exactly the structural zeroing
`resetState`. -/
theorem resetSub_state :
    (∀ t, (resetSub t).1 = resetState t) ∧
    ∀ cs : List Task, ∀ fin : List Task,
      (resetChildren fin cs).1 = fin ++ resetStateList cs := by
  refine task_ind _ _ ?_ ?_ ?_ ?_ ?_
  · intro d; simp [resetSub, resetState]
  · intro p l; simp [resetSub, resetState]
  · intro cs ih
    simp only [resetSub, resetState]
    simp [ih []]
  · intro fin; simp [resetChildren, resetStateList]
  · intro c cs ihc ihcs fin
    simp only [resetChildren]
    rw [ihcs, ihc]
    simp [resetStateList]

/-- Resetting puts every leaf of the tree in its zero state. -/
theorem resetState_leavesZero :
    (∀ t, leavesZero (resetState t) = true) ∧
    ∀ cs : List Task, leavesZeroList (resetStateList cs) = true := by
  refine task_ind _ _ ?_ ?_ ?_ ?_ ?_
  · intro d; simp [resetState, leavesZero]
  · intro p l; simp [resetState, leavesZero]
  · intro cs ih; simp [resetState, leavesZero, ih]
  · simp [resetStateList, leavesZeroList]
  · intro c cs ihc ihcs; simp [resetStateList, leavesZeroList, ihc, ihcs]

/-- A parent whose child is firing from inside its reset is never done, so
the parent hook converts each child firing into a parent firing. -/
theorem pokes_filter (fin rest : List Task) :
    ∀ l : List Task, (∀ s ∈ l, is_done s = false) →
    (l.filterMap (fun s =>
        if is_done (.multi (fin ++ s :: rest)) then none
        else some (Task.multi (fin ++ s :: rest)))).length = l.length ∧
    ∀ x ∈ l.filterMap (fun s =>
        if is_done (.multi (fin ++ s :: rest)) then none
        else some (Task.multi (fin ++ s :: rest))), is_done x = false := by
  intro l
  induction l with
  | nil => intro _; simp
  | cons a l ih =>
      intro h
      have ha : is_done a = false := h a (List.mem_cons_self a l)
      have hsnap : is_done (Task.multi (fin ++ a :: rest)) = false := by
        simp only [is_done]
        exact allDone_false_of_mem (fin ++ a :: rest) a (by simp) ha
      have ih' := ih (fun s hs => h s (List.mem_cons_of_mem a hs))
      constructor
      · simp [List.filterMap_cons, hsnap, ih'.1]
      · intro x hx
        simp only [List.filterMap_cons, hsnap] at hx
        rcases List.mem_cons.mp hx with rfl | hx
        · exact hsnap
        · exact ih'.2 x hx

/-- On a `good` tree (positive counter targets, no childless composite),
resetting a node fires that node's listeners once per node of its subtree,
and every firing happens in a not-yet-done snapshot. -/
theorem resetSub_pokes :
    (∀ t, good t = true →
      is_done (resetState t) = false ∧
      (resetSub t).2.length = nodeCount t ∧
      ∀ s ∈ (resetSub t).2, is_done s = false) ∧
    ∀ cs : List Task, goodList cs = true →
      (∀ c ∈ cs, is_done (resetState c) = false) ∧
      ∀ fin, (resetChildren fin cs).2.length = nodeCountList cs ∧
        ∀ s ∈ (resetChildren fin cs).2, is_done s = false := by
  refine task_ind _ _ ?_ ?_ ?_ ?_ ?_
  · intro d _
    refine ⟨rfl, by simp [resetSub, nodeCount], ?_⟩
    intro s hs
    simp only [resetSub, List.mem_singleton] at hs
    subst hs
    rfl
  · intro p l hg
    have hl : (0 : ℚ) < l := by simpa [good] using hg
    refine ⟨?_, by simp [resetSub, nodeCount], ?_⟩
    · simp only [resetState, is_done, decide_eq_false_iff_not, not_le, Int.cast_zero]
      exact hl
    · intro s hs
      simp only [resetSub, List.mem_singleton] at hs
      subst hs
      simp only [is_done, decide_eq_false_iff_not, not_le, Int.cast_zero]
      exact hl
  · intro cs ih hg
    have hne : cs ≠ [] := by
      intro hcs
      subst hcs
      simp [good, List.isEmpty] at hg
    have hgl : goodList cs = true := by
      simp only [good, Bool.and_eq_true] at hg
      exact hg.2
    obtain ⟨hmem, hcount⟩ := ih hgl
    have hfinal : is_done (Task.multi (resetStateList cs)) = false := by
      cases cs with
      | nil => exact absurd rfl hne
      | cons c rest =>
          have h1 : is_done (resetState c) = false :=
            hmem c (List.mem_cons_self c rest)
          simp only [is_done, resetStateList]
          exact allDone_false_of_mem (resetState c :: resetStateList rest)
            (resetState c) (List.mem_cons_self _ _) h1
    refine ⟨by simpa [resetState] using hfinal, ?_, ?_⟩
    · simp only [resetSub]
      simp [(hcount []).1, nodeCount]
    · intro s hs
      simp only [resetSub, List.mem_append, List.mem_singleton] at hs
      rcases hs with hs | hs
      · exact (hcount []).2 s hs
      · subst hs
        rw [resetSub_state.2 cs []]
        simpa using hfinal
  · intro _hg
    refine ⟨by simp, ?_⟩
    intro fin
    simp [resetChildren, nodeCountList]
  · intro c cs ihc ihcs hg
    have hgc : good c = true := by
      simp only [goodList, Bool.and_eq_true] at hg
      exact hg.1
    have hgcs : goodList cs = true := by
      simp only [goodList, Bool.and_eq_true] at hg
      exact hg.2
    obtain ⟨hc_rs, hc_len, hc_mem⟩ := ihc hgc
    obtain ⟨hmemcs, hcountcs⟩ := ihcs hgcs
    constructor
    · intro x hx
      rcases List.mem_cons.mp hx with rfl | hx
      · exact hc_rs
      · exact hmemcs x hx
    · intro fin
      simp only [resetChildren]
      have hfil := pokes_filter fin cs (resetSub c).2 hc_mem
      have hmore := hcountcs (fin ++ [(resetSub c).1])
      constructor
      · simp [List.length_append, hfil.1, hc_len, hmore.1, nodeCountList]
      · intro s hs
        rcases List.mem_append.mp hs with hs | hs
        · exact hfil.2 s hs
        · exact hmore.2 s hs

/-! ## Claim theorems: reset propagation -/

/-- Claim C1, counterexample.  A composite with one counted child (target 1,
currently complete): its `reset()` fires the composite's own listeners twice
— once when the child's reset notification reaches the composite's `update`
hook, and once at the end of the composite's own `reset` — not exactly
once. -/
theorem C1_counterexample :
    (resetSub (Task.multi [Task.counter 1 1])).2.length = 2 ∧
    (resetSub (Task.multi [Task.counter 1 1])).2.length ≠ 1 := by
  decide

/-- Claim C1, amended.  `reset()` on a composite does reset every descendant
leaf to its zero state; but the composite's own listeners fire once per node
of its subtree (one firing propagated up from each descendant's reset
notification, plus the final firing of the composite's own `reset`) —
`nodeCount` many times, hence more than once whenever there is at least one
child — provided every counted leaf has a positive target and every
composite in the tree has at least one child. -/
theorem C1_reset_behavior (t : Task) :
    (resetSub t).1 = resetState t ∧
    leavesZero ((resetSub t).1) = true ∧
    (good t = true → (resetSub t).2.length = nodeCount t) := by
  refine ⟨resetSub_state.1 t, ?_, ?_⟩
  · rw [resetSub_state.1 t]
    exact resetState_leavesZero.1 t
  · intro hg
    exact (resetSub_pokes.1 t hg).2.1

/-- Witness for C1_reset_behavior on a two-child composite mid-run: the
reset zeroes both leaves and fires the composite's listeners 3 times. -/
theorem C1_reset_behavior_witness :
    good (Task.multi [Task.counter 7 5, Task.simple true]) = true ∧
    (resetSub (Task.multi [Task.counter 7 5, Task.simple true])).1 =
      Task.multi [Task.counter 0 5, Task.simple false] ∧
    leavesZero ((resetSub (Task.multi [Task.counter 7 5, Task.simple true])).1) = true ∧
    (resetSub (Task.multi [Task.counter 7 5, Task.simple true])).2.length = 3 := by
  have h := C1_reset_behavior (Task.multi [Task.counter 7 5, Task.simple true])
  refine ⟨by decide, ?_, h.2.1, ?_⟩
  · rw [h.1]
    rfl
  · rw [h.2.2 (by decide)]
    decide

/-! ## Completeness invariant lemmas (claims C2, C4, C5, C10) -/

/-- On a well-formed state, `completeness` is defined, lies in `[0, 1]`,
and equals `1` exactly when the task `is_done`. -/
theorem valid_completeness :
    (∀ t, valid t = true → ∃ q : ℚ, completeness t = some q ∧ 0 ≤ q ∧ q ≤ 1 ∧
      (is_done t = true ↔ q = 1)) ∧
    ∀ cs : List Task, validList cs = true → ∃ s : ℚ, completenessSum cs = some s ∧
      0 ≤ s ∧ s ≤ cs.length ∧ (allDone cs = true ↔ s = cs.length) := by
  refine task_ind _ _ ?_ ?_ ?_ ?_ ?_
  · intro d _
    refine ⟨if d then 1 else 0, rfl, ?_, ?_, ?_⟩
    · cases d <;> norm_num
    · cases d <;> norm_num
    · cases d <;> simp [is_done]
  · intro p l hv
    simp only [valid, Bool.and_eq_true, decide_eq_true_eq] at hv
    obtain ⟨⟨⟨⟨h1, h2⟩, h3⟩, h4⟩, h5⟩ := hv
    have hlq : ((l.num : ℚ)) = l := Rat.coe_int_num_of_den_eq_one h2
    have hlpos : (0 : ℚ) < l := by
      rw [← hlq]
      exact_mod_cast h1
    have hl0 : l ≠ 0 := ne_of_gt hlpos
    refine ⟨(p : ℚ) / l, by simp [completeness, hl0], ?_, ?_, ?_⟩
    · apply div_nonneg _ (le_of_lt hlpos)
      exact_mod_cast h4
    · rw [div_le_one hlpos, ← hlq]
      exact_mod_cast h5
    · rw [div_eq_one_iff_eq hl0]
      simp only [is_done, decide_eq_true_eq]
      rw [← hlq]
      constructor
      · intro h
        have h6 : l.num ≤ p := by exact_mod_cast h
        have h7 : p = l.num := by omega
        exact_mod_cast h7
      · intro h
        have h6 : p = l.num := by exact_mod_cast h
        have h7 : l.num ≤ p := by omega
        exact_mod_cast h7
  · intro cs ih hv
    have hvl : validList cs = true := by simpa [valid] using hv
    obtain ⟨s, hs, h0, hlen, hiff⟩ := ih hvl
    cases cs with
    | nil =>
        exact ⟨1, by simp [completeness], by norm_num, le_refl 1,
          by simp [is_done, allDone]⟩
    | cons c rest =>
        have hne : (c :: rest).length ≠ 0 := by simp
        have hnpos : (0 : ℚ) < ((c :: rest).length : ℚ) := by
          exact_mod_cast Nat.pos_of_ne_zero hne
        refine ⟨s / ((c :: rest).length : ℚ), ?_, ?_, ?_, ?_⟩
        · simp only [completeness, if_neg hne, hs]
        · exact div_nonneg h0 (le_of_lt hnpos)
        · rw [div_le_one hnpos]
          exact hlen
        · rw [div_eq_one_iff_eq (ne_of_gt hnpos)]
          simp only [is_done] at hiff ⊢
          exact hiff
  · intro _
    refine ⟨0, rfl, le_refl 0, by simp, ?_⟩
    simp [allDone, completenessSum]
  · intro c cs ihc ihcs hv
    have hc : valid c = true := by
      simp only [validList, Bool.and_eq_true] at hv
      exact hv.1
    have hcs : validList cs = true := by
      simp only [validList, Bool.and_eq_true] at hv
      exact hv.2
    obtain ⟨q, hq, hq0, hq1, hqiff⟩ := ihc hc
    obtain ⟨s, hs, hs0, hslen, hsiff⟩ := ihcs hcs
    refine ⟨q + s, by simp only [completenessSum, hq, hs], by linarith, ?_, ?_⟩
    · simp only [List.length_cons]
      push_cast
      linarith
    · simp only [allDone, Bool.and_eq_true, hqiff, hsiff, List.length_cons]
      push_cast
      constructor
      · rintro ⟨h1, h2⟩
        linarith
      · intro h
        constructor <;> linarith

/-- Packaging of the no-change case of an `update()` call. -/
theorem update_unchanged_aux (t : Task) (hv : valid t = true) :
    valid t = true ∧ ∃ q q' : ℚ, completeness t = some q ∧
      completeness t = some q' ∧ q ≤ q' := by
  obtain ⟨q, hq, _, _, _⟩ := valid_completeness.1 t hv
  exact ⟨hv, q, q, hq, hq, le_refl q⟩

/-- One `update()` call anywhere in a well-formed tree keeps the tree
well-formed and never decreases `completeness`. -/
theorem valid_update :
    (∀ t, valid t = true → ∀ path : List Nat,
      valid (updateAtState t path) = true ∧
      ∃ q q' : ℚ, completeness t = some q ∧
        completeness (updateAtState t path) = some q' ∧ q ≤ q') ∧
    ∀ cs : List Task, validList cs = true → ∀ (i : Nat) (rest : List Nat),
      validList (updateChildState cs i rest) = true ∧
      (updateChildState cs i rest).length = cs.length ∧
      ∃ s s' : ℚ, completenessSum cs = some s ∧
        completenessSum (updateChildState cs i rest) = some s' ∧ s ≤ s' := by
  refine task_ind _ _ ?_ ?_ ?_ ?_ ?_
  · intro d hv path
    cases path with
    | nil =>
        cases d with
        | false =>
            have he : updateAtState (Task.simple false) [] = Task.simple true := by
              simp [updateAtState, is_done, primUpdate]
            rw [he]
            exact ⟨rfl, 0, 1, by simp [completeness], by simp [completeness], by norm_num⟩
        | true =>
            have he : updateAtState (Task.simple true) [] = Task.simple true := by
              simp [updateAtState, is_done]
            rw [he]
            exact update_unchanged_aux _ hv
    | cons i rest =>
        have he : updateAtState (Task.simple d) (i :: rest) = Task.simple d := by
          simp [updateAtState]
        rw [he]
        exact update_unchanged_aux _ hv
  · intro p l hv path
    have hvu := hv
    simp only [valid, Bool.and_eq_true, decide_eq_true_eq] at hvu
    obtain ⟨⟨⟨⟨h1, h2⟩, h3⟩, h4⟩, h5⟩ := hvu
    have hlq : ((l.num : ℚ)) = l := Rat.coe_int_num_of_den_eq_one h2
    have hlpos : (0 : ℚ) < l := by
      rw [← hlq]
      exact_mod_cast h1
    have hl0 : l ≠ 0 := ne_of_gt hlpos
    cases path with
    | cons i rest =>
        have he : updateAtState (Task.counter p l) (i :: rest) = Task.counter p l := by
          simp [updateAtState]
        rw [he]
        exact update_unchanged_aux _ hv
    | nil =>
        by_cases hd : l ≤ (p : ℚ)
        · have he : updateAtState (Task.counter p l) [] = Task.counter p l := by
            simp [updateAtState, is_done, hd]
          rw [he]
          exact update_unchanged_aux _ hv
        · have hplt : p < l.num := by
            have h6 : (p : ℚ) < l := lt_of_not_le hd
            rw [← hlq] at h6
            exact_mod_cast h6
          have hw : wrap32 (p + 1) = p + 1 := by
            simp only [wrap32]
            omega
          have he : updateAtState (Task.counter p l) [] = Task.counter (p + 1) l := by
            simp [updateAtState, is_done, hd, primUpdate, hw]
          rw [he]
          refine ⟨?_, (p : ℚ) / l, ((p : ℚ) + 1) / l, ?_, ?_, ?_⟩
          · simp only [valid, Bool.and_eq_true, decide_eq_true_eq]
            omega
          · simp [completeness, hl0]
          · simp only [completeness, if_neg hl0]
            push_cast
            ring_nf
          · rw [div_le_div_iff_of_pos_right hlpos]
            linarith
  · intro cs ih hv path
    have hvl : validList cs = true := by simpa [valid] using hv
    cases path with
    | nil =>
        have he : updateAtState (Task.multi cs) [] = Task.multi cs := by
          by_cases hd : is_done (Task.multi cs) = true
          · simp [updateAtState, hd]
          · simp [updateAtState, hd, primUpdate]
        rw [he]
        exact update_unchanged_aux _ hv
    | cons i rest =>
        have he : updateAtState (Task.multi cs) (i :: rest) =
            Task.multi (updateChildState cs i rest) := by
          simp [updateAtState]
        rw [he]
        obtain ⟨hvl', hlen, s, s', hs, hs', hss⟩ := ih hvl i rest
        refine ⟨by simpa [valid] using hvl', ?_⟩
        cases cs with
        | nil =>
            have h0 : updateChildState ([] : List Task) i rest = [] := by
              simp [updateChildState]
            rw [h0]
            exact ⟨1, 1, by simp [completeness], by simp [completeness], le_refl 1⟩
        | cons c cs' =>
            have hne : (c :: cs').length ≠ 0 := by simp
            have hne' : (updateChildState (c :: cs') i rest).length ≠ 0 := by
              rw [hlen]
              simp
            have hnpos : (0 : ℚ) < ((c :: cs').length : ℚ) := by
              exact_mod_cast Nat.pos_of_ne_zero hne
            refine ⟨s / ((c :: cs').length : ℚ), s' / ((c :: cs').length : ℚ), ?_, ?_, ?_⟩
            · simp only [completeness, if_neg hne, hs]
            · simp only [completeness, if_neg hne', hs', hlen]
              rw [if_neg hne]
            · rw [div_le_div_iff_of_pos_right hnpos]
              exact hss
  · intro _hv i rest
    refine ⟨by simp [updateChildState, validList], by simp [updateChildState],
      0, 0, rfl, by simp [updateChildState, completenessSum], le_refl 0⟩
  · intro c cs ihc ihcs hv i rest
    have hc : valid c = true := by
      simp only [validList, Bool.and_eq_true] at hv
      exact hv.1
    have hcs : validList cs = true := by
      simp only [validList, Bool.and_eq_true] at hv
      exact hv.2
    cases i with
    | zero =>
        have he : updateChildState (c :: cs) 0 rest = updateAtState c rest :: cs := by
          simp [updateChildState]
        rw [he]
        obtain ⟨hvc', q, q', hq, hq', hqq⟩ := ihc hc rest
        obtain ⟨s, hs, _, _, _⟩ := valid_completeness.2 cs hcs
        refine ⟨by simp [validList, hvc', hcs], by simp, q + s, q' + s, ?_, ?_, by linarith⟩
        · simp only [completenessSum, hq, hs]
        · simp only [completenessSum, hq', hs]
    | succ i =>
        have he : updateChildState (c :: cs) (i + 1) rest =
            c :: updateChildState cs i rest := by
          simp [updateChildState]
        rw [he]
        obtain ⟨hvl', hlen, s, s', hs, hs', hss⟩ := ihcs hcs i rest
        obtain ⟨q, hq, _, _, _⟩ := valid_completeness.1 c hc
        refine ⟨by simp [validList, hc, hvl'], by simp [hlen], q + s, q + s', ?_, ?_, by linarith⟩
        · simp only [completenessSum, hq, hs]
        · simp only [completenessSum, hq, hs']

/-- Folding any sequence of `update()` calls keeps the tree well-formed and
never decreases `completeness`. -/
theorem updSeq_invariant (ps : List (List Nat)) :
    ∀ t, valid t = true →
      valid (updSeq t ps) = true ∧
      ∃ q q' : ℚ, completeness t = some q ∧
        completeness (updSeq t ps) = some q' ∧ q ≤ q' := by
  induction ps with
  | nil =>
      intro t hv
      obtain ⟨q, hq, _, _, _⟩ := valid_completeness.1 t hv
      exact ⟨hv, q, q, hq, hq, le_refl q⟩
  | cons p ps ih =>
      intro t hv
      obtain ⟨hv1, q, q1, hq, hq1, hle⟩ := valid_update.1 t hv p
      obtain ⟨hv2, q1', q2, hq1', hq2, hle2⟩ := ih (updateAtState t p) hv1
      have hstep : updSeq t (p :: ps) = updSeq (updateAtState t p) ps := by
        simp [updSeq]
      rw [hstep]
      refine ⟨hv2, q, q2, hq, hq2, ?_⟩
      have : q1 = q1' := by
        rw [hq1] at hq1'
        exact Option.some_injective ℚ hq1'
      linarith [this ▸ hle]

/-! ## Claim theorems: completeness invariant -/

/-- Claim C2, counterexample.  `CounterTask.__init__` validates nothing, so
over *every* concrete task the claim fails twice.  With target `-1` the
freshly constructed leaf (zero `update()` calls) already reports
`is_done() == true` while its completeness is `0.0`, not `1.0`, breaking
the claimed iff.  With the fractional target `0.5` — positive, and exactly
what the repository's own driver passes (`CounterTask(len(data)/2)`) — a
single `update()` passes the guard (`0 >= 0.5` is false) and the task then
reports completeness `1/0.5 = 2.0`, leaving `[0.0, 1.0]`. -/
theorem C2_counterexample :
    (is_done (mkCounterTask (-1)) = true ∧
     completeness (mkCounterTask (-1)) = some 0 ∧ (0 : ℚ) ≠ 1) ∧
    (completeness (updSeq (mkCounterTask (1 / 2)) [[]]) = some 2 ∧ ¬((2 : ℚ) ≤ 1)) := by
  refine ⟨⟨by decide, ?_, by norm_num⟩, ?_, by norm_num⟩
  · simp [mkCounterTask, completeness]
  · have hnd : ¬((1 / 2 : ℚ) ≤ ((0 : Int) : ℚ)) := by norm_num
    have hstep : updSeq (mkCounterTask (1 / 2)) [[]] = Task.counter 1 (1 / 2) := by
      simp [updSeq, mkCounterTask, updateAtState, is_done, hnd, primUpdate, wrap32]
    rw [hstep]
    have h0 : (1 / 2 : ℚ) ≠ 0 := by norm_num
    simp only [completeness, if_neg h0]
    norm_num

/-- Claim C2, amended.  For every task all of whose counted leaves are
well-formed — a positive *integer* target that the 32-bit progress cell can
reach (at most `2^31 - 1`), counter within range; in particular every
freshly built tree with such targets — and every sequence of `update()`
calls addressed anywhere in the tree with no intervening reset,
`completeness()` is defined, monotonically non-decreasing, stays in
`[0, 1]`, and `is_done()` holds iff completeness has reached `1.0`.
(Fractional targets overshoot `1.0` and targets of `2^31` and beyond wrap
the cell, so both restrictions are forced by counterexamples.) -/
theorem C2_completeness_invariant (t : Task) (h : valid t = true)
    (ps : List (List Nat)) :
    valid (updSeq t ps) = true ∧
    ∃ q q' : ℚ, completeness t = some q ∧ completeness (updSeq t ps) = some q' ∧
      q ≤ q' ∧ 0 ≤ q' ∧ q' ≤ 1 ∧ (is_done (updSeq t ps) = true ↔ q' = 1) := by
  obtain ⟨hv, q, q', hq, hq', hle⟩ := updSeq_invariant ps t h
  obtain ⟨q2, hq2, h0, h1, hiff⟩ := valid_completeness.1 _ hv
  have hqq : q2 = q' := by
    rw [hq'] at hq2
    exact Option.some_injective ℚ hq2.symm
  subst hqq
  exact ⟨hv, q, q2, hq, hq', hle, h0, h1, hiff⟩

/-- Witness for C2 on a fresh counted leaf with target 2 driven by two
updates. -/
theorem C2_completeness_invariant_witness :
    valid (mkCounterTask 2) = true ∧
    (valid (updSeq (mkCounterTask 2) [[], []]) = true ∧
     ∃ q q' : ℚ, completeness (mkCounterTask 2) = some q ∧
       completeness (updSeq (mkCounterTask 2) [[], []]) = some q' ∧
       q ≤ q' ∧ 0 ≤ q' ∧ q' ≤ 1 ∧
       (is_done (updSeq (mkCounterTask 2) [[], []]) = true ↔ q' = 1)) :=
  ⟨by decide, C2_completeness_invariant (mkCounterTask 2) (by decide) [[], []]⟩

/-! ## Claim theorems: composite aggregation (C4) -/

theorem completenessSum_forall2 :
    ∀ {cs : List Task} {vs : List ℚ},
      List.Forall₂ (fun c v => completeness c = some v) cs vs →
      completenessSum cs = some vs.sum ∧ cs.length = vs.length := by
  intro cs vs h
  induction h with
  | nil => simp [completenessSum]
  | cons hcv _ ih =>
      refine ⟨?_, by simp [ih.2]⟩
      simp only [completenessSum, hcv, ih.1, List.sum_cons]

theorem allDone_eq_all : ∀ cs : List Task, allDone cs = cs.all (fun c => is_done c) := by
  intro cs
  induction cs with
  | nil => rfl
  | cons c cs ih => simp [allDone, List.all_cons, ih]

/-- Claim C4: a composite's `completeness()` is the arithmetic mean of its
children's completeness values (`1.0` for zero children), its `is_done()` is
the conjunction of the children's (`true` for zero children); and the spec's
worked example — targets 2 and 4, the first leaf driven to completion and
the second halfway — reports `0.75` and is not yet done. -/
theorem C4_composite_aggregation :
    (completeness (Task.multi []) = some 1 ∧ is_done (Task.multi []) = true) ∧
    (∀ (cs : List Task) (vs : List ℚ),
      List.Forall₂ (fun c v => completeness c = some v) cs vs → cs ≠ [] →
      completeness (Task.multi cs) = some (vs.sum / (vs.length : ℚ))) ∧
    (∀ cs : List Task, is_done (Task.multi cs) = cs.all (fun c => is_done c)) ∧
    completeness (updSeq (Task.multi [mkCounterTask 2, mkCounterTask 4])
        [[0], [0], [1], [1]]) = some (3 / 4) ∧
    is_done (updSeq (Task.multi [mkCounterTask 2, mkCounterTask 4])
        [[0], [0], [1], [1]]) = false := by
  refine ⟨⟨by simp [completeness], by decide⟩, ?_, ?_, ?_, by decide⟩
  · intro cs vs h hne
    obtain ⟨hsum, hlen⟩ := completenessSum_forall2 h
    have hn : cs.length ≠ 0 := by
      simpa [List.length_eq_zero] using hne
    simp only [completeness, if_neg hn, hsum, hlen]
    rw [if_neg (hlen ▸ hn)]
  · intro cs
    simp only [is_done]
    exact allDone_eq_all cs
  · have hstate : updSeq (Task.multi [mkCounterTask 2, mkCounterTask 4])
        [[0], [0], [1], [1]] = Task.multi [Task.counter 2 2, Task.counter 2 4] := rfl
    rw [hstate]
    norm_num [completeness, completenessSum]

/-- Witness for C4's quantified parts at a concrete two-child composite. -/
theorem C4_composite_aggregation_witness :
    completeness (Task.multi [Task.simple true, Task.simple false]) =
      some ((([1, 0] : List ℚ).sum) / ((([1, 0] : List ℚ).length : Nat) : ℚ)) ∧
    is_done (Task.multi [Task.simple true, Task.simple false]) =
      ([Task.simple true, Task.simple false].all (fun c => is_done c)) := by
  constructor
  · exact C4_composite_aggregation.2.1 [Task.simple true, Task.simple false] [1, 0]
      (List.Forall₂.cons rfl (List.Forall₂.cons rfl List.Forall₂.nil)) (by simp)
  · exact C4_composite_aggregation.2.2.1 [Task.simple true, Task.simple false]

/-! ## Claim theorems: counted leaf completion (C5) and no over-drive (C10) -/

/-- Splitting a run of `update()` calls. -/
theorem updateRunN_add : ∀ (a b : Nat) (t : Task),
    (updateRunN t (a + b)).1 = (updateRunN (updateRunN t a).1 b).1 := by
  intro a
  induction a with
  | zero =>
      intro b t
      rw [Nat.zero_add]
      rfl
  | succ a ih =>
      intro b t
      have h : a + 1 + b = (a + b) + 1 := by omega
      rw [h]
      simp only [updateRunN]
      exact ih b (updateSub t).1

/-- As long as the counter stays below both the target and the top of the
32-bit range, each guarded `update()` increments it by exactly one. -/
theorem counter_updateRunN :
    ∀ (k : Nat) (p : Int) (T : ℚ), 0 ≤ p → ((p + (k : Int) : Int) : ℚ) ≤ T →
      p + (k : Int) ≤ 2147483647 →
      (updateRunN (.counter p T) k).1 = .counter (p + (k : Int)) T := by
  intro k
  induction k with
  | zero =>
      intro p T _ _ _
      simp [updateRunN]
  | succ k ih =>
      intro p T h0 hle h31
      have hkq : (0 : ℚ) ≤ ((k : Int) : ℚ) := by positivity
      have hd : ¬(T ≤ (p : ℚ)) := by
        push_cast at hle
        linarith
      have hw : wrap32 (p + 1) = p + 1 := by
        simp only [wrap32]
        omega
      have hstep : updateSub (Task.counter p T) =
          (Task.counter (p + 1) T, [Task.counter (p + 1) T]) := by
        simp [updateSub, is_done, hd, hw]
      have hrec : (updateRunN (Task.counter (p + 1) T) k).1 =
          .counter (p + 1 + (k : Int)) T := by
        refine ih (p + 1) T (by omega) ?_ (by omega)
        have hgoal : ((p : ℚ)) + 1 + ((k : Nat) : ℚ) ≤ T := by
          have h7 : ((p : ℚ)) + ((k : ℚ) + 1) ≤ T := by exact_mod_cast hle
          linarith
        exact_mod_cast hgoal
      simp only [updateRunN, hstep]
      rw [hrec]
      have harith : p + 1 + (k : Int) = p + ((k : Nat) + 1 : Int) := by
        omega
      rw [show ((k + 1 : Nat) : Int) = ((k : Nat) + 1 : Int) by push_cast; ring, ← harith]

/-- Running the fresh 2^31-target leaf for exactly 2^31 guarded updates: the
guard never fires (the 32-bit cell cannot reach 2^31), and the last
increment wraps the cell to -2^31. -/
theorem big_counter_run :
    (updateRunN (mkCounterTask ((2147483648 : Int) : ℚ)) 2147483648).1 =
      Task.counter (-2147483648) ((2147483648 : Int) : ℚ) := by
  have h1 : (2147483648 : Nat) = 2147483647 + 1 := by norm_num
  rw [h1, updateRunN_add 2147483647 1]
  have h2 : (updateRunN (mkCounterTask ((2147483648 : Int) : ℚ)) 2147483647).1 =
      Task.counter 2147483647 ((2147483648 : Int) : ℚ) := by
    have h := counter_updateRunN 2147483647 0 ((2147483648 : Int) : ℚ)
      le_rfl (by push_cast; norm_num) (by norm_num)
    simpa [mkCounterTask] using h
  rw [h2]
  rfl

/-- Claim C5, counterexample.  The target 2^31 is a positive integer in the
claim's scope, but the 32-bit progress cell can never reach it: after
exactly 2^31 sequential `update()` calls on the fresh leaf the counter has
wrapped to -2^31, `is_done()` is false and `completeness()` is `-1.0`, not
`1.0`. -/
theorem C5_counterexample :
    is_done (updateRunN (mkCounterTask ((2147483648 : Int) : ℚ))
      (2147483648 : Int).toNat).1 = false ∧
    completeness (updateRunN (mkCounterTask ((2147483648 : Int) : ℚ))
      (2147483648 : Int).toNat).1 = some (-1) ∧
    ((-1 : ℚ) ≠ 1) := by
  have ht : (2147483648 : Int).toNat = 2147483648 := rfl
  rw [ht, big_counter_run]
  refine ⟨by decide, ?_, by norm_num⟩
  have hT0 : ((2147483648 : Int) : ℚ) ≠ 0 := by
    rw [Int.cast_ne_zero]
    norm_num
  simp only [completeness, if_neg hT0]
  rw [Option.some_inj]
  push_cast
  norm_num

/-- Claim C5, amended.  A freshly constructed counted leaf with positive
integer target `T` that the 32-bit progress cell can represent
(`T ≤ 2^31 - 1`) is done with completeness exactly `1.0` after exactly `T`
sequential `update()` calls. -/
theorem C5_counter_completion (T : Int) (hT : 0 < T) (hT31 : T ≤ 2147483647) :
    is_done (updateRunN (mkCounterTask (T : ℚ)) T.toNat).1 = true ∧
    completeness (updateRunN (mkCounterTask (T : ℚ)) T.toNat).1 = some 1 := by
  have hcast : ((T.toNat : Int)) = T := Int.toNat_of_nonneg (le_of_lt hT)
  have hrun : (updateRunN (mkCounterTask (T : ℚ)) T.toNat).1 = .counter T (T : ℚ) := by
    have h := counter_updateRunN T.toNat 0 (T : ℚ) le_rfl
      (by rw [hcast]; push_cast; linarith) (by omega)
    rw [hcast] at h
    simpa [mkCounterTask] using h
  rw [hrun]
  have hT0 : ((T : ℚ)) ≠ 0 := by
    rw [Int.cast_ne_zero]
    omega
  refine ⟨?_, ?_⟩
  · simp only [is_done, decide_eq_true_eq]
    exact le_refl (T : ℚ)
  · simp only [completeness, if_neg hT0]
    rw [div_self hT0]

/-- Witness for C5's amended claim at target 3. -/
theorem C5_counter_completion_witness :
    is_done (updateRunN (mkCounterTask ((3 : Int) : ℚ)) (3 : Int).toNat).1 = true ∧
    completeness (updateRunN (mkCounterTask ((3 : Int) : ℚ)) (3 : Int).toNat).1 = some 1 :=
  C5_counter_completion 3 (by norm_num) (by norm_num)

/-- Under any sequence of guarded updates and resets the 32-bit counter can
wrap downwards but never climbs past a positive integer target. -/
theorem counter_ops_bound (T : Int) (hT : 0 < T) :
    ∀ (ops : List TOp) (p : Int), -2147483648 ≤ p → p ≤ 2147483647 → p ≤ T →
      ∃ q, List.foldl applyOp (Task.counter p (T : ℚ)) ops = Task.counter q (T : ℚ) ∧
        -2147483648 ≤ q ∧ q ≤ 2147483647 ∧ q ≤ T := by
  intro ops
  induction ops with
  | nil => exact fun p h1 h2 h3 => ⟨p, rfl, h1, h2, h3⟩
  | cons op ops ih =>
      intro p h1 h2 h3
      cases op with
      | upd =>
          by_cases hd : (T : ℚ) ≤ (p : ℚ)
          · have hstep : applyOp (Task.counter p (T : ℚ)) TOp.upd =
                Task.counter p (T : ℚ) := by
              simp [applyOp, updateSub, is_done, hd]
            rw [List.foldl_cons, hstep]
            exact ih p h1 h2 h3
          · have hplt : p < T := by
              have h6 : (p : ℚ) < (T : ℚ) := lt_of_not_le hd
              exact_mod_cast h6
            have hstep : applyOp (Task.counter p (T : ℚ)) TOp.upd =
                Task.counter (wrap32 (p + 1)) (T : ℚ) := by
              simp [applyOp, updateSub, is_done, hd]
            rw [List.foldl_cons, hstep]
            refine ih (wrap32 (p + 1)) ?_ ?_ ?_ <;> simp only [wrap32] <;> omega
      | rst =>
          have hstep : applyOp (Task.counter p (T : ℚ)) TOp.rst =
              Task.counter 0 (T : ℚ) := by
            simp [applyOp, resetSub]
          rw [List.foldl_cons, hstep]
          exact ih 0 (by omega) (by omega) (by omega)

/-- Claim C10: with a positive integer target `T`, the guard in
`Task.update` makes sequential over-driving impossible — under any sequence
of `update()` and `reset()` calls the 32-bit counter never exceeds `T`
(wrapping can only send it downwards) and `completeness()` never exceeds
`1.0`. -/
theorem C10_no_overdrive (T : Int) (hT : 0 < T) (ops : List TOp) :
    ∃ p : Int, applyOps (mkCounterTask (T : ℚ)) ops = Task.counter p (T : ℚ) ∧
      p ≤ T ∧
      completeness (applyOps (mkCounterTask (T : ℚ)) ops) = some ((p : ℚ) / (T : ℚ)) ∧
      ((p : ℚ) / (T : ℚ)) ≤ 1 := by
  obtain ⟨p, hp, h1, h2, h3⟩ :=
    counter_ops_bound T hT ops 0 (by omega) (by omega) (by omega)
  have hp' : applyOps (mkCounterTask (T : ℚ)) ops = Task.counter p (T : ℚ) := hp
  have hT0 : ((T : ℚ)) ≠ 0 := by
    rw [Int.cast_ne_zero]
    omega
  have hTpos : (0 : ℚ) < (T : ℚ) := by exact_mod_cast hT
  refine ⟨p, hp', h3, ?_, ?_⟩
  · rw [hp']
    simp [completeness, hT0]
  · rw [div_le_one hTpos]
    exact_mod_cast h3

/-- Witness for C10: target 2 with three updates (the third is blocked). -/
theorem C10_no_overdrive_witness :
    ∃ p : Int, applyOps (mkCounterTask ((2 : Int) : ℚ)) [TOp.upd, TOp.upd, TOp.upd] =
        Task.counter p ((2 : Int) : ℚ) ∧
      p ≤ 2 ∧
      completeness (applyOps (mkCounterTask ((2 : Int) : ℚ)) [TOp.upd, TOp.upd, TOp.upd]) =
        some ((p : ℚ) / ((2 : Int) : ℚ)) ∧
      ((p : ℚ) / ((2 : Int) : ℚ)) ≤ 1 :=
  C10_no_overdrive 2 (by norm_num) [TOp.upd, TOp.upd, TOp.upd]

/-! ## Claim theorems: update idempotence after completion (C6) -/

theorem updateRunN_done : ∀ (n : Nat) (t : Task), is_done t = true →
    updateRunN t n = (t, []) := by
  intro n
  induction n with
  | zero => intro t _; rfl
  | succ n ih =>
      intro t h
      have hstep : updateSub t = (t, []) := by
        simp [updateSub, h]
      simp only [updateRunN, hstep]
      rw [ih t h]
      rfl

/-- Claim C6: on a task that is already done, `update()` changes nothing and
fires no listener; and a boolean leaf fires its listeners exactly once over
any positive number of sequential `update()` calls. -/
theorem C6_update_idempotent (t : Task) (h : is_done t = true) (n : Nat) :
    updateSub t = (t, []) ∧
    (updateRunN (Task.simple false) (n + 1)).2.length = 1 := by
  constructor
  · simp [updateSub, h]
  · have h1 : updateSub (Task.simple false) =
        (Task.simple true, [Task.simple true]) := rfl
    have h2 : updateRunN (Task.simple true) n = (Task.simple true, []) :=
      updateRunN_done n (Task.simple true) rfl
    simp [updateRunN, h1, h2]

/-- Witness for C6: a completed counter ignores `update()`, and five updates
of a fresh boolean leaf fire its listeners exactly once. -/
theorem C6_update_idempotent_witness :
    updateSub (Task.counter 2 2) = (Task.counter 2 2, []) ∧
    (updateRunN (Task.simple false) (4 + 1)).2.length = 1 :=
  C6_update_idempotent (Task.counter 2 2) (by decide) 4

/-! ## Claim theorems: concurrent updates (C9) -/

theorem wstep_inv (K : Nat) (hK31 : K ≤ 2147483647) (s : WPool) (hs : winv K s)
    (a : WAct) : winv K (wstep (K : ℚ) s a) := by
  obtain ⟨h1, h2, h3⟩ := hs
  cases a with
  | doGuard =>
      by_cases hp : s.pending = 0
      · simpa [wstep, hp] using ⟨h1, h2, h3⟩
      · have hguard : is_done (Task.counter s.progress (K : ℚ)) = false := by
          simp only [is_done, decide_eq_false_iff_not]
          intro hle
          have h4 : (K : Int) ≤ s.progress := by exact_mod_cast hle
          omega
        simp only [wstep, if_neg hp, hguard, Bool.false_eq_true, if_false]
        refine ⟨?_, ?_, ?_⟩
        · show s.pending - 1 + (s.armed + 1) + s.finInc = K
          omega
        · exact h2
        · exact h3
  | doIncr =>
      by_cases ha : s.armed = 0
      · simpa [wstep, ha] using ⟨h1, h2, h3⟩
      · have hw : wrap32 (s.progress + 1) = s.progress + 1 := by
          simp only [wrap32]
          omega
        simp only [wstep, if_neg ha]
        refine ⟨?_, ?_, ?_⟩
        · show s.pending + (s.armed - 1) + (s.finInc + 1) = K
          omega
        · exact h2
        · show wrap32 (s.progress + 1) = ((s.finInc + 1 : Nat) : Int)
          rw [hw]
          omega

theorem wrun_inv (K : Nat) (hK31 : K ≤ 2147483647) (sched : List WAct) :
    winv K (wrun (K : ℚ) (winit K) sched) := by
  have hgen : ∀ (l : List WAct) (s : WPool), winv K s → winv K (wrun (K : ℚ) s l) := by
    intro l
    induction l with
    | nil => exact fun s hs => hs
    | cons a l ih =>
        intro s hs
        have hone : wrun (K : ℚ) s (a :: l) = wrun (K : ℚ) (wstep (K : ℚ) s a) l := by
          simp [wrun]
        rw [hone]
        exact ih _ (wstep_inv K hK31 s hs a)
  exact hgen sched (winit K) ⟨by simp [winit], rfl, rfl⟩

/-- Claim C9, amended: for every worker count K that the 32-bit counter cell
can represent (`K ≤ 2^31 - 1`), if K workers each perform one `update()` on
a shared fresh `CounterTask(K)` — each call split into its atomic guard read
and its atomic locked increment — then under every interleaving in which
all workers have finished, no update is lost: the counter equals K and the
task is done. -/
theorem C9_concurrent_updates (K : Nat) (_hK : 0 < K) (hK31 : K ≤ 2147483647)
    (sched : List WAct)
    (hfin : (wrun (K : ℚ) (winit K) sched).pending = 0 ∧
            (wrun (K : ℚ) (winit K) sched).armed = 0) :
    (wrun (K : ℚ) (winit K) sched).progress = (K : Int) ∧
    is_done (Task.counter ((wrun (K : ℚ) (winit K) sched).progress) (K : ℚ)) = true := by
  obtain ⟨h1, h2, h3⟩ := wrun_inv K hK31 sched
  have h4 : (wrun (K : ℚ) (winit K) sched).progress = (K : Int) := by omega
  refine ⟨h4, ?_⟩
  simp only [is_done, decide_eq_true_eq, h4]
  push_cast
  exact le_refl _

/-- Witness for C9's amended claim: two workers, fully interleaved. -/
theorem C9_concurrent_updates_witness :
    (wrun ((2 : Nat) : ℚ) (winit 2) [.doGuard, .doIncr, .doGuard, .doIncr]).progress =
      ((2 : Nat) : Int) ∧
    is_done (Task.counter
      ((wrun ((2 : Nat) : ℚ) (winit 2) [.doGuard, .doIncr, .doGuard, .doIncr]).progress)
      ((2 : Nat) : ℚ)) = true :=
  C9_concurrent_updates 2 (by norm_num) (by norm_num)
    [.doGuard, .doIncr, .doGuard, .doIncr] ⟨rfl, rfl⟩

theorem wrun_append (K : ℚ) (s : WPool) (l1 l2 : List WAct) :
    wrun K s (l1 ++ l2) = wrun K (wrun K s l1) l2 := by
  simp [wrun, List.foldl_append]

theorem roundSched_append :
    ∀ a b : Nat, roundSched (a + b) = roundSched a ++ roundSched b := by
  intro a
  induction a with
  | zero =>
      intro b
      simp [roundSched]
  | succ a ih =>
      intro b
      have h : a + 1 + b = (a + b) + 1 := by omega
      rw [h]
      simp only [roundSched, List.cons_append]
      rw [ih]

/-- One guard-increment round of the 2^31-worker pool while the cell is
still below its top value. -/
theorem bigK_round (i : Nat) (hi : i ≤ 2147483646) :
    wstep (2147483648 : ℚ) (wstep (2147483648 : ℚ)
        (⟨2147483648 - i, 0, i, 0, (i : Int)⟩ : WPool) WAct.doGuard) WAct.doIncr =
      (⟨2147483648 - (i + 1), 0, i + 1, 0, ((i + 1 : Nat) : Int)⟩ : WPool) := by
  have hp : ¬((2147483648 - i : Nat) = 0) := by omega
  have hguard : is_done (Task.counter ((i : Nat) : Int) (2147483648 : ℚ)) = false := by
    simp only [is_done, decide_eq_false_iff_not]
    intro hle
    have h2 : (2147483648 : Int) ≤ ((i : Nat) : Int) := by exact_mod_cast hle
    omega
  have hinner : wstep (2147483648 : ℚ) (⟨2147483648 - i, 0, i, 0, (i : Int)⟩ : WPool)
      WAct.doGuard = (⟨2147483648 - (i + 1), 1, i, 0, (i : Int)⟩ : WPool) := by
    simp [wstep, if_neg hp, hguard, WPool.mk.injEq]
    omega
  rw [hinner]
  have hwrap : wrap32 (((i : Nat) : Int) + 1) = ((i + 1 : Nat) : Int) := by
    simp only [wrap32]
    omega
  simp [wstep, hwrap, WPool.mk.injEq]

/-- Running the 2^31-worker pool for n sequential rounds, while the cell
stays in range, finishes n workers and counts them faithfully. -/
theorem bigK_run : ∀ (n i : Nat), i + n ≤ 2147483647 →
    wrun (2147483648 : ℚ) (⟨2147483648 - i, 0, i, 0, (i : Int)⟩ : WPool) (roundSched n) =
      (⟨2147483648 - (i + n), 0, i + n, 0, ((i + n : Nat) : Int)⟩ : WPool) := by
  intro n
  induction n with
  | zero =>
      intro i hi
      simp [roundSched, wrun]
  | succ n ih =>
      intro i hi
      have hr := bigK_round i (by omega)
      have hstep : wrun (2147483648 : ℚ) (⟨2147483648 - i, 0, i, 0, (i : Int)⟩ : WPool)
          (roundSched (n + 1)) =
          wrun (2147483648 : ℚ)
            (⟨2147483648 - (i + 1), 0, i + 1, 0, ((i + 1 : Nat) : Int)⟩ : WPool)
            (roundSched n) := by
        simp only [roundSched, wrun, List.foldl_cons]
        rw [hr]
      rw [hstep, ih (i + 1) (by omega)]
      have h : i + 1 + n = i + (n + 1) := by omega
      rw [h]

/-- The full 2^31-round run: the last locked increment wraps the shared cell
to -2^31 although every worker finished. -/
theorem bigK_final :
    wrun (2147483648 : ℚ) (winit 2147483648) (roundSched 2147483648) =
      (⟨0, 0, 2147483648, 0, -2147483648⟩ : WPool) := by
  have hsplit : (2147483648 : Nat) = 2147483647 + 1 := by norm_num
  have hinit : winit 2147483648 = (⟨2147483648 - 0, 0, 0, 0, ((0 : Nat) : Int)⟩ : WPool) :=
    rfl
  rw [hsplit, roundSched_append 2147483647 1, wrun_append, hinit,
    bigK_run 2147483647 0 (by omega)]
  have hnorm : (⟨2147483648 - (0 + 2147483647), 0, 0 + 2147483647, 0,
      ((0 + 2147483647 : Nat) : Int)⟩ : WPool) =
      (⟨1, 0, 2147483647, 0, (2147483647 : Int)⟩ : WPool) := by
    norm_num
  rw [hnorm]
  have hlast : wrun (2147483648 : ℚ) (⟨1, 0, 2147483647, 0, (2147483647 : Int)⟩ : WPool)
      (roundSched 1) = (⟨0, 0, 2147483648, 0, -2147483648⟩ : WPool) := rfl
  rw [hlast]

/-- Claim C9, counterexample.  K = 2^31 workers each perform their single
`update()`, fully sequentially: every guard read sees a not-done task (the
32-bit cell never reaches 2^31), all 2^31 locked increments execute, and
the last one wraps the shared cell to -2^31.  Every worker has finished,
yet the counter is not K and `is_done()` is false. -/
theorem C9_counterexample :
    (wrun (2147483648 : ℚ) (winit 2147483648) (roundSched 2147483648)).pending = 0 ∧
    (wrun (2147483648 : ℚ) (winit 2147483648) (roundSched 2147483648)).armed = 0 ∧
    (wrun (2147483648 : ℚ) (winit 2147483648) (roundSched 2147483648)).progress =
      -2147483648 ∧
    (wrun (2147483648 : ℚ) (winit 2147483648) (roundSched 2147483648)).progress ≠
      ((2147483648 : Nat) : Int) ∧
    is_done (Task.counter
      ((wrun (2147483648 : ℚ) (winit 2147483648) (roundSched 2147483648)).progress)
      (2147483648 : ℚ)) = false := by
  have hb := bigK_final
  refine ⟨by rw [hb], by rw [hb], by rw [hb], ?_, ?_⟩
  · rw [hb]
    decide
  · rw [hb]
    decide

end Cmdanager
